import Mathlib

/-!
Verification development for the bin-diff repository.

The embedding below mirrors the current sources:
`include/sequence_view.hpp` (class `sequence_view`), the patch header
(`patch` with `make_addition` / `make_deletion`) and the diff header
(`diff::_diff` / `diff::diff`, the Myers middle-snake search based on
Robert Elder's optimized variant).

Modelling conventions:
- `int32_t` values are modelled as `Int`; the inputs considered are far
  below `2^31`, so two's-complement wraparound never fires on any path
  analysed here.
- `%` on `int32_t` is C++ truncated remainder, modelled by `Int.tmod`
  (sign of the dividend), and `/` by `Int.tdiv`.
- Indexing a `std::vector` or the backing buffer of a `sequence_view`
  outside its allocated range is undefined behaviour in C++; the model
  makes every such access explicit and returns `Except.error Err.oob`
  at exactly the accesses whose index is outside the allocation.
- Loops (`for`, `while`) are modelled by structurally recursive
  functions over a fuel parameter; fuel is chosen at each call site to
  be at least the number of iterations the C++ loop bound permits, so
  a `.error .fuel` result can only arise if a loop would exceed the
  bound that its own header enforces.
-/

/-- Explicit failure modes of the model: `oob` marks an access that is
undefined behaviour in the C++ source (vector or buffer index outside the
allocation), `fuel` marks loop-bound exhaustion, and the two `combine`
errors mirror the two commented `throw std::exception()` branches of
`sequence_view::combine`. -/
inductive Err where
  | oob
  | fuel
  | incompatibleSequence
  | nonAdjacentRange
deriving DecidableEq, Repr

/-- `sequence_view` as used by `combine` (sequence_view.hpp lines 19-97):
`backing` models the `m_seq` pointer (two views are compatible iff the
pointers are equal; `none` is the null view), `b`/`e` are the `size_t`
members `m_view_index_begin` / `m_view_index_end`. -/
structure SeqView where
  backing : Option Nat
  b : Nat
  e : Nat
deriving DecidableEq, Repr

/-- `sequence_view::combine` (sequence_view.hpp lines 78-97), translated
branch for branch: differing backing pointers throw (modelled
`incompatibleSequence`); then the test
`m_view_index_end >= other.m_view_index_begin || other.m_view_index_end >= m_view_index_begin`
selects the combining branch; otherwise the second throw (modelled
`nonAdjacentRange`). -/
def SeqView.combine (s o : SeqView) : Except Err SeqView :=
  if s.backing ≠ o.backing then
    .error .incompatibleSequence
  else if s.e ≥ o.b ∨ o.e ≥ s.b then
    .ok ⟨s.backing, min s.b o.b, max s.e o.e⟩
  else
    .error .nonAdjacentRange

/-- The `sequence_view<char>` instances the diff engine works on:
`backing` models the viewed buffer contents (`none` for the null view
built by `sequence_view()`), `b`/`e` the begin/end indices, kept as `Int`
to track the `int32_t` coordinate arithmetic of the engine exactly. -/
structure View where
  backing : Option (List Char)
  b : Int
  e : Int
deriving DecidableEq, Repr

/-- `sequence_view()` — the null view. -/
def View.null : View := ⟨none, 0, 0⟩

/-- `sequence_view(str.c_str(), 0, str.size())` as built by `diff::diff`. -/
def View.ofList (l : List Char) : View := ⟨some l, 0, (l.length : Int)⟩

/-- The recursing constructor `sequence_view(seq, begin, end)`
(sequence_view.hpp lines 60-64): offsets are relative to the parent view. -/
def View.sub (s : View) (b2 e2 : Int) : View := ⟨s.backing, s.b + b2, s.b + e2⟩

/-- `sequence_view::size()`: `m_view_index_end - m_view_index_begin`,
as the engine immediately stores it into `int32_t`. -/
def View.size (s : View) : Int := s.e - s.b

/-- `sequence_view::operator[]` : `m_seq[m_view_index_begin + i]`.
Reading outside the backing allocation is undefined behaviour, made
explicit as `.error .oob` (a null view has no readable element). -/
def View.get (s : View) (i : Int) : Except Err Char :=
  match s.backing with
  | none => .error .oob
  | some l =>
    if 0 ≤ s.b + i ∧ s.b + i < (l.length : Int) then
      .ok (l.getD (s.b + i).toNat 'a')
    else .error .oob

/-- `std::string(std::cbegin(seq), seq.size())` as used by
`patch::make_addition` / `make_deletion`: copies `size()` characters
starting at `m_seq + m_view_index_begin`; any byte outside the backing
allocation makes the copy undefined behaviour (`.oob`). -/
def View.extract (s : View) : Except Err (List Char) :=
  match s.backing with
  | none => .error .oob
  | some l =>
    if 0 ≤ s.b ∧ s.b ≤ s.e ∧ s.e ≤ (l.length : Int) then
      .ok ((l.drop s.b.toNat).take (s.e - s.b).toNat)
    else .error .oob

/-- `patch_operation` (patch.hpp). -/
inductive PatchOp where
  | Addition
  | Deletion
deriving DecidableEq, Repr

/-- `patch`: operation kind, `m_begin` (the view's `index_begin()`),
and the owned copy `m_seq` of the affected symbols. -/
structure Patch where
  op : PatchOp
  begin : Int
  seq : List Char
deriving DecidableEq, Repr

/-- `patch::make_addition` (patch.hpp lines 37-41). -/
def Patch.make_addition (v : View) : Except Err Patch :=
  match v.extract with
  | .error e => .error e
  | .ok s => .ok ⟨.Addition, v.b, s⟩

/-- `patch::make_deletion` (patch.hpp lines 43-47). -/
def Patch.make_deletion (v : View) : Except Err Patch :=
  match v.extract with
  | .error e => .error e
  | .ok s => .ok ⟨.Deletion, v.b, s⟩

/-- Read of `vec[i]` on a `std::vector<int32_t>`: in range yields the
element, anything else is undefined behaviour (`.oob`).  The index is
the `int32_t` value the C++ source computes (often a truncated `%`),
converted to the vector's `size_type`; a negative value converts to a
huge `size_t` and is out of range. -/
def vget (a : List Int) (i : Int) : Except Err Int :=
  if 0 ≤ i ∧ i < (a.length : Int) then .ok (a.getD i.toNat 0) else .error .oob

/-- Write `vec[i] = v` on a `std::vector<int32_t>`, same range contract
as `vget`. -/
def vset (a : List Int) (i : Int) (v : Int) : Except Err (List Int) :=
  if 0 ≤ i ∧ i < (a.length : Int) then .ok (a.set i.toNat v) else .error .oob

/-- The candidate-`x` computation shared verbatim by the forward snake
(diff.hpp lines 64-68) and the backward snake (lines 119-123), applied to
the respective rolling array `best`:

`if (k == -D || (k != D && best[(k-1) % len] < best[(k+1) % len])) x = best[(k+1) % len]; else x = best[(k-1) % len] + 1;`

with C++ short-circuit evaluation of the condition and C++ truncated `%`. -/
def bestCandidate (best : List Int) (xlen D k : Int) : Except Err Int :=
  if k = -D then
    vget best ((k + 1).tmod xlen)
  else if k ≠ D then
    match vget best ((k - 1).tmod xlen), vget best ((k + 1).tmod xlen) with
    | .ok a, .ok b => if a < b then vget best ((k + 1).tmod xlen) else .ok (a + 1)
    | .error e, _ => .error e
    | _, .error e => .error e
  else
    match vget best ((k - 1).tmod xlen) with
    | .ok a => .ok (a + 1)
    | .error e => .error e

/-- The forward snake extension loop (diff.hpp lines 74-77):
`while (x < lhs_size && y < rhs_size && lhs_seq[x] == rhs_seq[y]) { x++; y++; }`. -/
def snakeFwd (lv rv : View) (L R : Int) : Nat → Int → Int → Except Err (Int × Int)
  | 0, _, _ => .error .fuel
  | f + 1, x, y =>
    if x < L ∧ y < R then
      match lv.get x, rv.get y with
      | .ok cl, .ok cr =>
        if cl = cr then snakeFwd lv rv L R f (x + 1) (y + 1) else .ok (x, y)
      | .error e, _ => .error e
      | _, .error e => .error e
    else .ok (x, y)

/-- The backward snake extension loop (diff.hpp lines 129-132):
`while (x < lhs_size && y < rhs_size && lhs_seq[lhs_size-x-1] == rhs_seq[rhs_size-y-1]) { x++; y++; }`. -/
def snakeBwd (lv rv : View) (L R : Int) : Nat → Int → Int → Except Err (Int × Int)
  | 0, _, _ => .error .fuel
  | f + 1, x, y =>
    if x < L ∧ y < R then
      match lv.get (L - x - 1), rv.get (R - y - 1) with
      | .ok cl, .ok cr =>
        if cl = cr then snakeBwd lv rv L R f (x + 1) (y + 1) else .ok (x, y)
      | .error e, _ => .error e
      | _, .error e => .error e
    else .ok (x, y)

/-- The data the engine extracts when the overlap test fires: the depth
value it assigns back to `D`, the snake start `(x, y)` and the snake end
`(u, v)` in forward coordinates (diff.hpp lines 83-87 and 138-142). -/
structure Split where
  D : Int
  x : Int
  y : Int
  u : Int
  v : Int
deriving DecidableEq, Repr

/-- One pass of the forward-snake `for`-loop over diagonals
(diff.hpp lines 63-115): iterates `k` from `kst` while `k < ken1` in
steps of 2, updating the forward rolling array `bf`; returns the split
data if the odd-parity overlap test (line 82) fires, else the final
array.  The overlap test short-circuits exactly like the C++ `&&`
chain, so the rolling arrays are only read once `z` passed the range
test. -/
def fwdScan (lv rv : View) (L R maxlen xlen w D ken1 : Int) (bb : List Int) :
    Nat → Int → List Int → Except Err (Option Split × List Int)
  | 0, _, _ => .error .fuel
  | f + 1, k, bf =>
    if k < ken1 then
      match bestCandidate bf xlen D k with
      | .error e => .error e
      | .ok x0 =>
        let y0 := x0 - k
        match snakeFwd lv rv L R ((L - x0).toNat + 1) x0 y0 with
        | .error e => .error e
        | .ok (x1, y1) =>
          match vset bf (k.tmod xlen) x1 with
          | .error e => .error e
          | .ok bf1 =>
            let z := -(k - w)
            if maxlen.tmod 2 = 1 then
              if -(D - 1) ≤ z ∧ z ≤ D - 1 then
                match vget bf1 (k.tmod xlen), vget bb (z.tmod xlen) with
                | .ok a, .ok bz =>
                  if L ≤ a + bz then
                    .ok (some ⟨2 * D - 1, x0, y0, x1, y1⟩, bf1)
                  else fwdScan lv rv L R maxlen xlen w D ken1 bb f (k + 2) bf1
                | .error e, _ => .error e
                | _, .error e => .error e
              else fwdScan lv rv L R maxlen xlen w D ken1 bb f (k + 2) bf1
            else fwdScan lv rv L R maxlen xlen w D ken1 bb f (k + 2) bf1
    else .ok (none, bf)

/-- One pass of the backward-snake `for`-loop over diagonals
(diff.hpp lines 118-170), the even-parity overlap test (line 137), and
the backward-to-forward coordinate conversion of lines 139-142:
`u = lhs_size - x_initial; v = rhs_size - y_initial; x = lhs_size - x; y = rhs_size - y`. -/
def bwdScan (lv rv : View) (L R maxlen xlen w D ken1 : Int) (bf : List Int) :
    Nat → Int → List Int → Except Err (Option Split × List Int)
  | 0, _, _ => .error .fuel
  | f + 1, k, bb =>
    if k < ken1 then
      match bestCandidate bb xlen D k with
      | .error e => .error e
      | .ok x0 =>
        let y0 := x0 - k
        match snakeBwd lv rv L R ((L - x0).toNat + 1) x0 y0 with
        | .error e => .error e
        | .ok (x1, y1) =>
          match vset bb (k.tmod xlen) x1 with
          | .error e => .error e
          | .ok bb1 =>
            let z := -(k - w)
            if maxlen.tmod 2 = 0 then
              if -D ≤ z ∧ z ≤ D then
                match vget bb1 (k.tmod xlen), vget bf (z.tmod xlen) with
                | .ok a, .ok fz =>
                  if L ≤ a + fz then
                    .ok (some ⟨2 * D, L - x1, R - y1, L - x0, R - y0⟩, bb1)
                  else bwdScan lv rv L R maxlen xlen w D ken1 bf f (k + 2) bb1
                | .error e, _ => .error e
                | _, .error e => .error e
              else bwdScan lv rv L R maxlen xlen w D ken1 bf f (k + 2) bb1
            else bwdScan lv rv L R maxlen xlen w D ken1 bf f (k + 2) bb1
    else .ok (none, bb)

/-- The outer depth loop (diff.hpp line 61):
`for (D = 0; D < (max_len / 2 + (max_len % 2 != 0)) + 1; D++)` running
the forward pass then the backward pass at each depth, with the shared
diagonal range `k ∈ [-(D - 2*max(0, D-R)), D - 2*max(0, D-L)]` of both
inner loop headers (lines 63 and 118). -/
def dLoop (lv rv : View) (L R maxlen xlen w dBound : Int) :
    Nat → Int → List Int → List Int → Except Err (Option Split)
  | 0, _, _, _ => .error .fuel
  | f + 1, D, bf, bb =>
    if D < dBound then
      let kst := -(D - 2 * max 0 (D - R))
      let ken1 := D - 2 * max 0 (D - L) + 1
      match fwdScan lv rv L R maxlen xlen w D ken1 bb ((ken1 - kst).toNat + 1) kst bf with
      | .error e => .error e
      | .ok (some s, _) => .ok (some s)
      | .ok (none, bf1) =>
        match bwdScan lv rv L R maxlen xlen w D ken1 bf1 ((ken1 - kst).toNat + 1) kst bb with
        | .error e => .error e
        | .ok (some s, _) => .ok (some s)
        | .ok (none, bb1) => dLoop lv rv L R maxlen xlen w dBound f (D + 1) bf1 bb1
    else .ok none

/-- `diff::_diff` (diff.hpp lines 46-179): the constructor body.  Sizes
`lhs_size`, `rhs_size`, `max_len`, `x_values_len` are computed as in
lines 50-53; the two rolling arrays are `std::vector<int32_t>(x_values_len, 0)`;
after a successful overlap the split test `D > 1 || (x != u && y != v)`
(lines 89 and 144) picks between the two sub-diffs, the residual-tail
sub-diffs, and the no-op return.  Patches accumulate in order in `acc`,
modelling the by-reference `patches` vector.  The outermost fuel counts
recursion depth. -/
def diffRec : Nat → View → View → List Patch → Except Err (List Patch)
  | 0, _, _, _ => .error .fuel
  | f + 1, lv, rv, acc =>
    let L := lv.size
    let R := rv.size
    let maxlen := L + R
    let xlen := 2 * min L R + 2
    if 0 < L ∧ 0 < R then
      let w := L - R
      let bf := List.replicate xlen.toNat (0 : Int)
      let bb := List.replicate xlen.toNat (0 : Int)
      let dBound := maxlen.tdiv 2 + (if maxlen.tmod 2 ≠ 0 then 1 else 0) + 1
      match dLoop lv rv L R maxlen xlen w dBound (dBound.toNat + 1) 0 bf bb with
      | .error e => .error e
      | .ok none => .ok acc
      | .ok (some s) =>
        if 1 < s.D ∨ (s.x ≠ s.u ∧ s.y ≠ s.v) then
          match diffRec f (lv.sub 0 s.x) (rv.sub 0 s.y) acc with
          | .error e => .error e
          | .ok acc1 => diffRec f (lv.sub s.u L) (rv.sub s.v R) acc1
        else if L < R then
          diffRec f View.null (rv.sub L R) acc
        else if R < L then
          diffRec f (lv.sub R L) View.null acc
        else .ok acc
    else if 0 < L then
      match Patch.make_deletion lv with
      | .error e => .error e
      | .ok p => .ok (acc ++ [p])
    else if 0 < R then
      match Patch.make_addition rv with
      | .error e => .error e
      | .ok p => .ok (acc ++ [p])
    else .ok acc

/-- `diff::diff` (diff.hpp lines 193-202): builds the two full views
over the input strings and runs `_diff` with an empty patches vector.
The depth fuel `|l| + |r| + 1` covers every recursion the engine can
reach before either returning or hitting undefined behaviour. -/
def diff (l r : List Char) : Except Err (List Patch) :=
  diffRec (l.length + r.length + 1) (View.ofList l) (View.ofList r) []

/-! ### Helper lemmas -/

/-- C++ truncated `%` leaves a small non-negative value unchanged. -/
theorem tmod_small {a b : Int} (h0 : 0 ≤ a) (h : a < b) : a.tmod b = a := by
  rw [Int.tmod_eq_emod h0 (le_trans h0 h.le), Int.emod_eq_of_lt h0 h]

/-- An in-range vector read yields the stored element. -/
theorem vget_pos {a : List Int} {i : Int} (h0 : 0 ≤ i) (h : i < (a.length : Int)) :
    vget a i = .ok (a.getD i.toNat 0) := by
  simp only [vget, if_pos (And.intro h0 h)]

/-- An in-range vector write yields the updated vector. -/
theorem vset_pos {a : List Int} {i : Int} (v : Int) (h0 : 0 ≤ i) (h : i < (a.length : Int)) :
    vset a i v = .ok (a.set i.toNat v) := by
  simp only [vset, if_pos (And.intro h0 h)]

/-- Reading any position of the all-zero rolling array gives `0`. -/
theorem getD_replicate_zero (n m : Nat) : (List.replicate n (0 : Int)).getD m 0 = 0 := by
  rw [List.getD_eq_getElem?_getD, List.getElem?_replicate]
  split <;> rfl

/-- Reading back the slot just written. -/
theorem getD_set_zero (l : List Int) (v : Int) (h : 0 < l.length) :
    (l.set 0 v).getD 0 0 = v := by
  rw [List.getD_eq_getElem?_getD, List.getElem?_set_eq_of_lt _ h]
  rfl

/-- Size of a freshly built full view. -/
theorem View.size_ofList (l : List Char) : (View.ofList l).size = (l.length : Int) := by
  simp [View.size, View.ofList]

/-! ### Degenerate and out-of-bounds executions (claims C1, C2, C4, C5, C7, C8) -/

/-- C5: `diff("", "")` returns the empty patch list, `diff("", "abc")`
returns exactly one patch, an Addition with offset 0 and payload `"abc"`,
and `diff("abc", "")` returns exactly one patch, a Deletion with offset 0
and payload `"abc"` — the three degenerate base cases of `diff::_diff`
(diff.hpp lines 172-178). -/
theorem diff_degenerate_cases :
    diff [] [] = .ok [] ∧
    diff [] ['a', 'b', 'c'] = .ok [⟨.Addition, 0, ['a', 'b', 'c']⟩] ∧
    diff ['a', 'b', 'c'] [] = .ok [⟨.Deletion, 0, ['a', 'b', 'c']⟩] :=
  ⟨rfl, rfl, rfl⟩

/-- C1 (code_bug evidence): on the input pair `("a", "b")` the engine
never produces a patch list at all — at depth `D = 1`, diagonal `k = -1`,
the store `best_forward_x_values[k % x_values_len]` uses C++ truncated
`%`, giving index `-1`, an out-of-bounds vector write (undefined
behaviour), so the round-trip property cannot hold for this pair. -/
theorem diff_roundtrip_blocked_by_oob : diff ['a'] ['b'] = .error .oob := rfl

/-- C2 (code_bug evidence): on `("a", "bc")` the engine aborts with the
same out-of-bounds rolling-array write at `D = 1`, `k = -1` before any
edit script is produced, so its payload total cannot equal the
insert+delete edit distance (here 3). -/
theorem diff_minimality_blocked_by_oob : diff ['a'] ['b', 'c'] = .error .oob := rfl

/-- C4 (code_bug evidence): for the disjoint non-empty pair
`("ab", "cd")` the engine aborts with the out-of-bounds rolling-array
write at `D = 1`, `k = -1` instead of returning the claimed
Deletion/Addition patch pair. -/
theorem diff_disjoint_blocked_by_oob : diff ['a', 'b'] ['c', 'd'] = .error .oob := rfl

/-- C7 (code_bug evidence): the rolling-array index expressions do not
always land in `[0, 2·min(L,R)+2)`.  With `L = R = 1` the capacity is 4,
and at `D = 1`, `k = -1` the C++ truncated `%` gives the store index
`(-1) % 4 = -1`, which converts to an enormous `size_t` — the model's
bounds-checked write rejects it (first conjunct), and the full run on
`("x", "y")` aborts at exactly that access (second conjunct). -/
theorem rolling_array_index_out_of_bounds :
    vset (List.replicate 4 0) ((-1 : Int).tmod 4) 0 = .error .oob ∧
    diff ['x'] ['y'] = .error .oob :=
  ⟨rfl, rfl⟩

/-- C8 (code_bug evidence): on `("b", "a")` the run does not complete
the claimed depth-bounded search: it aborts with the out-of-bounds
rolling-array write at `D = 1`, `k = -1` (undefined behaviour in C++,
after which no termination guarantee exists). -/
theorem diff_termination_blocked_by_oob : diff ['b'] ['a'] = .error .oob := rfl

/-! ### `sequence_view::combine` (claim C6) -/

/-- C6 (code_bug evidence): `combine` on two views of the same backing
sequence whose ranges `[0,1)` and `[5,6)` neither overlap nor touch does
not raise the non-adjacent-ranges error: because the source tests
`m_view_index_end >= other.m_view_index_begin || other.m_view_index_end >= m_view_index_begin`
(an `||` where the comment demands rejection of non-adjacent ranges),
the second disjunct holds for any two well-formed views, and the call
succeeds with the hull view `[0,6)`. -/
theorem combine_accepts_disjoint_ranges :
    (SeqView.mk (some 0) 0 1).e < (SeqView.mk (some 0) 5 6).b ∧
    (SeqView.mk (some 0) 5 6).e ≠ (SeqView.mk (some 0) 0 1).b ∧
    SeqView.combine ⟨some 0, 0, 1⟩ ⟨some 0, 5, 6⟩ = .ok ⟨some 0, 0, 6⟩ :=
  ⟨by decide, by decide, rfl⟩

/-! ### Candidate selection rule (claim C10) -/

/-- C10: the candidate `x` computation of the forward snake (diff.hpp
lines 64-68) — shared verbatim by the backward snake (lines 119-123),
which is why both `fwdScan` and `bwdScan` above call the same
`bestCandidate` on their respective rolling arrays: on the boundary
diagonal `k = -D` the candidate is the previous best at diagonal `k+1`
unchanged (insert branch); on `k = D` it is the previous best at `k-1`
plus one (delete branch); on interior diagonals the branch with the
larger prior `x` wins (delete on ties). -/
theorem bestCandidate_branch_rule (best : List Int) (xlen D k vkm vkp : Int)
    (hm : vget best ((k - 1).tmod xlen) = .ok vkm)
    (hp : vget best ((k + 1).tmod xlen) = .ok vkp) :
    (k = -D → bestCandidate best xlen D k = .ok vkp) ∧
    (k = D → k ≠ -D → bestCandidate best xlen D k = .ok (vkm + 1)) ∧
    (k ≠ D → k ≠ -D → bestCandidate best xlen D k = .ok
      (if vkm < vkp then vkp else vkm + 1)) := by
  refine ⟨fun h1 => ?_, fun h1 h2 => ?_, fun h1 h2 => ?_⟩
  · rw [bestCandidate, if_pos h1]
    exact hp
  · rw [bestCandidate, if_neg h2, if_neg (by simp [h1])]
    rw [hm]
  · rw [bestCandidate, if_neg h2, if_pos h1, hm, hp]
    show (if vkm < vkp then (Except.ok vkp : Except Err Int) else .ok (vkm + 1)) = _
    by_cases hlt : vkm < vkp
    · rw [if_pos hlt, if_pos hlt]
    · rw [if_neg hlt, if_neg hlt]

/-- Witness for C10: a concrete interior diagonal (`k = 1`, `D = 3`)
with equal neighbours `3`, where the delete branch wins the tie. -/
theorem bestCandidate_branch_rule_witness :
    bestCandidate [3, 5] 2 3 1 = .ok (if (3 : Int) < 3 then 3 else 3 + 1) :=
  (bestCandidate_branch_rule [3, 5] 2 3 1 3 3 rfl rfl).2.2 (by decide) (by decide)

/-! ### Identity run (claim C3) -/

/-- Forward snake loop over two full views with the same contents: from
`(x, x)` every comparison `lhs_seq[x] == rhs_seq[y]` succeeds, so the
loop runs to the common end. -/
theorem snakeFwd_refl (S : List Char) (f : Nat) (x : Int)
    (hx0 : 0 ≤ x) (hxn : x ≤ (S.length : Int))
    (hf : ((S.length : Int) - x).toNat < f) :
    snakeFwd (View.ofList S) (View.ofList S) (S.length : Int) (S.length : Int) f x x
      = .ok ((S.length : Int), (S.length : Int)) := by
  induction f generalizing x with
  | zero => exact absurd hf (Nat.not_lt_zero _)
  | succ f ih =>
    by_cases hlt : x < (S.length : Int)
    · have hget : (View.ofList S).get x = .ok (S.getD x.toNat 'a') := by
        show (if 0 ≤ (0:Int) + x ∧ (0:Int) + x < (S.length : Int) then
               (Except.ok (S.getD ((0:Int) + x).toNat 'a') : Except Err Char)
              else .error .oob) = _
        rw [if_pos ⟨by omega, by omega⟩, zero_add]
      rw [snakeFwd, if_pos ⟨hlt, hlt⟩, hget]
      show (if S.getD x.toNat 'a' = S.getD x.toNat 'a'
            then snakeFwd (View.ofList S) (View.ofList S) (S.length : Int) (S.length : Int) f (x+1) (x+1)
            else .ok (x, x)) = _
      rw [if_pos rfl]
      exact ih (x+1) (by omega) (by omega) (by omega)
    · rw [snakeFwd, if_neg (by tauto)]
      have hx : x = (S.length : Int) := le_antisymm hxn (not_lt.mp hlt)
      rw [hx]

/-- Backward snake loop over two full views with the same contents:
every comparison `lhs_seq[L-x-1] == rhs_seq[R-y-1]` succeeds, so the
loop runs to the common end. -/
theorem snakeBwd_refl (S : List Char) (f : Nat) (x : Int)
    (hx0 : 0 ≤ x) (hxn : x ≤ (S.length : Int))
    (hf : ((S.length : Int) - x).toNat < f) :
    snakeBwd (View.ofList S) (View.ofList S) (S.length : Int) (S.length : Int) f x x
      = .ok ((S.length : Int), (S.length : Int)) := by
  induction f generalizing x with
  | zero => exact absurd hf (Nat.not_lt_zero _)
  | succ f ih =>
    by_cases hlt : x < (S.length : Int)
    · have hget : (View.ofList S).get ((S.length : Int) - x - 1)
          = .ok (S.getD ((S.length : Int) - x - 1).toNat 'a') := by
        show (if 0 ≤ (0:Int) + ((S.length : Int) - x - 1) ∧
                 (0:Int) + ((S.length : Int) - x - 1) < (S.length : Int) then
               (Except.ok (S.getD ((0:Int) + ((S.length : Int) - x - 1)).toNat 'a') : Except Err Char)
              else .error .oob) = _
        rw [if_pos ⟨by omega, by omega⟩, zero_add]
      rw [snakeBwd, if_pos ⟨hlt, hlt⟩, hget]
      show (if S.getD ((S.length : Int) - x - 1).toNat 'a' = S.getD ((S.length : Int) - x - 1).toNat 'a'
            then snakeBwd (View.ofList S) (View.ofList S) (S.length : Int) (S.length : Int) f (x+1) (x+1)
            else .ok (x, x)) = _
      rw [if_pos rfl]
      exact ih (x+1) (by omega) (by omega) (by omega)
    · rw [snakeBwd, if_neg (by tauto)]
      have hx : x = (S.length : Int) := le_antisymm hxn (not_lt.mp hlt)
      rw [hx]

/-- On the identity run the depth-0 forward pass records the full length
in diagonal 0 of the forward rolling array and finds no odd-parity
overlap (`L + R` is even). -/
theorem fwdScan_refl (S : List Char) (hn : 0 < S.length) (bb : List Int) (f : Nat) (hf : 1 ≤ f) :
    fwdScan (View.ofList S) (View.ofList S) (S.length : Int) (S.length : Int)
      ((S.length : Int) + (S.length : Int)) (2 * (S.length : Int) + 2) 0 0 1 bb (f + 1) 0
      (List.replicate (2 * (S.length : Int) + 2).toNat 0)
    = .ok (none, (List.replicate (2 * (S.length : Int) + 2).toNat 0).set 0 (S.length : Int)) := by
  obtain ⟨g, rfl⟩ : ∃ g, f = g + 1 := ⟨f - 1, by omega⟩
  have hlen : ((List.replicate (2 * (S.length : Int) + 2).toNat (0:Int)).length : Int)
      = 2 * (S.length : Int) + 2 := by
    rw [List.length_replicate]; omega
  have hbc : bestCandidate (List.replicate (2 * (S.length : Int) + 2).toNat 0)
      (2 * (S.length : Int) + 2) 0 0 = .ok 0 := by
    rw [bestCandidate, if_pos (by norm_num)]
    rw [show ((0:Int) + 1).tmod (2 * (S.length : Int) + 2) = 1 from
      tmod_small (by norm_num) (by omega)]
    rw [vget_pos (by norm_num) (by rw [hlen]; omega)]
    rw [show ((1:Int)).toNat = 1 from rfl, getD_replicate_zero]
  have hsn : snakeFwd (View.ofList S) (View.ofList S) (S.length : Int) (S.length : Int)
      (((S.length : Int) - 0).toNat + 1) 0 (0 - 0)
      = .ok ((S.length : Int), (S.length : Int)) := by
    rw [show ((0:Int) - 0) = 0 from rfl]
    exact snakeFwd_refl S _ 0 le_rfl (by omega) (by omega)
  have hst : vset (List.replicate (2 * (S.length : Int) + 2).toNat 0)
      ((0:Int).tmod (2 * (S.length : Int) + 2)) (S.length : Int)
      = .ok ((List.replicate (2 * (S.length : Int) + 2).toNat 0).set 0 (S.length : Int)) := by
    rw [show ((0:Int)).tmod (2 * (S.length : Int) + 2) = 0 from tmod_small le_rfl (by omega)]
    rw [vset_pos _ le_rfl (by rw [hlen]; omega)]
    rfl
  have hpar : ((S.length : Int) + (S.length : Int)).tmod 2 = 0 := by
    rw [show (S.length : Int) + (S.length : Int) = 2 * (S.length : Int) from by ring]
    exact Int.mul_tmod_right 2 _
  rw [fwdScan, if_pos (by norm_num)]
  simp only [hbc, hsn, hst]
  rw [if_neg (by rw [hpar]; norm_num)]
  rw [fwdScan, if_neg (by norm_num)]

/-- On the identity run the depth-0 backward pass records the full
length in diagonal 0, and the even-parity overlap test fires at once:
the engine reports the degenerate split `D = 0`, `(x, y) = (0, 0)`,
`(u, v) = (L, R)`. -/
theorem bwdScan_refl (S : List Char) (hn : 0 < S.length) (f : Nat) :
    bwdScan (View.ofList S) (View.ofList S) (S.length : Int) (S.length : Int)
      ((S.length : Int) + (S.length : Int)) (2 * (S.length : Int) + 2) 0 0 1
      ((List.replicate (2 * (S.length : Int) + 2).toNat 0).set 0 (S.length : Int)) (f + 1) 0
      (List.replicate (2 * (S.length : Int) + 2).toNat 0)
    = .ok (some ⟨0, 0, 0, (S.length : Int), (S.length : Int)⟩,
        (List.replicate (2 * (S.length : Int) + 2).toNat 0).set 0 (S.length : Int)) := by
  have hlen : ((List.replicate (2 * (S.length : Int) + 2).toNat (0:Int)).length : Int)
      = 2 * (S.length : Int) + 2 := by
    rw [List.length_replicate]; omega
  have hlens : (((List.replicate (2 * (S.length : Int) + 2).toNat (0:Int)).set 0
      (S.length : Int)).length : Int) = 2 * (S.length : Int) + 2 := by
    rw [List.length_set, List.length_replicate]; omega
  have hbc : bestCandidate (List.replicate (2 * (S.length : Int) + 2).toNat 0)
      (2 * (S.length : Int) + 2) 0 0 = .ok 0 := by
    rw [bestCandidate, if_pos (by norm_num)]
    rw [show ((0:Int) + 1).tmod (2 * (S.length : Int) + 2) = 1 from
      tmod_small (by norm_num) (by omega)]
    rw [vget_pos (by norm_num) (by rw [hlen]; omega)]
    rw [show ((1:Int)).toNat = 1 from rfl, getD_replicate_zero]
  have hsb : snakeBwd (View.ofList S) (View.ofList S) (S.length : Int) (S.length : Int)
      (((S.length : Int) - 0).toNat + 1) 0 (0 - 0)
      = .ok ((S.length : Int), (S.length : Int)) := by
    rw [show ((0:Int) - 0) = 0 from rfl]
    exact snakeBwd_refl S _ 0 le_rfl (by omega) (by omega)
  have hst : vset (List.replicate (2 * (S.length : Int) + 2).toNat 0)
      ((0:Int).tmod (2 * (S.length : Int) + 2)) (S.length : Int)
      = .ok ((List.replicate (2 * (S.length : Int) + 2).toNat 0).set 0 (S.length : Int)) := by
    rw [show ((0:Int)).tmod (2 * (S.length : Int) + 2) = 0 from tmod_small le_rfl (by omega)]
    rw [vset_pos _ le_rfl (by rw [hlen]; omega)]
    rfl
  have hpar : ((S.length : Int) + (S.length : Int)).tmod 2 = 0 := by
    rw [show (S.length : Int) + (S.length : Int) = 2 * (S.length : Int) from by ring]
    exact Int.mul_tmod_right 2 _
  have hga : vget ((List.replicate (2 * (S.length : Int) + 2).toNat 0).set 0 (S.length : Int))
      ((0:Int).tmod (2 * (S.length : Int) + 2)) = .ok (S.length : Int) := by
    rw [show ((0:Int)).tmod (2 * (S.length : Int) + 2) = 0 from tmod_small le_rfl (by omega)]
    rw [vget_pos le_rfl (by rw [hlens]; omega)]
    rw [show ((0:Int)).toNat = 0 from rfl]
    rw [getD_set_zero _ _ (by rw [List.length_replicate]; omega)]
  have hgb : vget ((List.replicate (2 * (S.length : Int) + 2).toNat 0).set 0 (S.length : Int))
      ((-((0:Int) - 0)).tmod (2 * (S.length : Int) + 2)) = .ok (S.length : Int) := by
    rw [show (-((0:Int) - 0)) = 0 from rfl]
    exact hga
  rw [bwdScan, if_pos (by norm_num)]
  simp only [hbc, hsb, hst]
  rw [if_pos hpar]
  rw [if_pos (show -(0:Int) ≤ -((0:Int) - 0) ∧ -((0:Int) - 0) ≤ 0 by norm_num)]
  simp only [hga, hgb]
  rw [if_pos (show (S.length : Int) ≤ (S.length : Int) + (S.length : Int) by omega)]
  simp only [mul_zero, sub_self, sub_zero]

/-- On the identity run the depth loop terminates during its very first
iteration (`D = 0`) with the degenerate split. -/
theorem dLoop_refl (S : List Char) (hn : 0 < S.length) (dB : Int) (hdB : 0 < dB) (f : Nat) :
    dLoop (View.ofList S) (View.ofList S) (S.length : Int) (S.length : Int)
      ((S.length : Int) + (S.length : Int)) (2 * (S.length : Int) + 2) 0 dB (f + 1) 0
      (List.replicate (2 * (S.length : Int) + 2).toNat 0)
      (List.replicate (2 * (S.length : Int) + 2).toNat 0)
    = .ok (some ⟨0, 0, 0, (S.length : Int), (S.length : Int)⟩) := by
  rw [dLoop, if_pos hdB]
  have hks : -((0:Int) - 2 * max 0 (0 - (S.length : Int))) = 0 := by
    rw [max_eq_left (by omega : (0:Int) - (S.length : Int) ≤ 0)]
    norm_num
  have hke : (0:Int) - 2 * max 0 (0 - (S.length : Int)) + 1 = 1 := by
    rw [max_eq_left (by omega : (0:Int) - (S.length : Int) ≤ 0)]
    norm_num
  simp only [hke, hks, sub_zero, Int.toNat_one]
  simp only [fwdScan_refl S hn (List.replicate (2 * (S.length : Int) + 2).toNat 0) 1 le_rfl]
  simp only [bwdScan_refl S hn 1]

/-- A call of `_diff` on two empty (or exhausted) views pushes nothing. -/
theorem diffRec_empty (f : Nat) (lv rv : View) (hl : lv.size ≤ 0) (hr : rv.size ≤ 0)
    (acc : List Patch) (hf : 1 ≤ f) :
    diffRec f lv rv acc = .ok acc := by
  obtain ⟨g, rfl⟩ : ∃ g, f = g + 1 := ⟨f - 1, by omega⟩
  rw [diffRec]
  simp only []
  rw [if_neg (by rintro ⟨h1, h2⟩; omega), if_neg (by omega), if_neg (by omega)]

/-- C3: `diff(S, S)` returns the empty patch list for every finite
string `S`.  For empty `S` the base case emits nothing; for non-empty
`S` the depth-0 backward overlap test fires with the degenerate split
`x = y = 0`, `u = v = L`, whose two sub-diffs both see empty views, so
no patch is ever pushed.  No rolling-array index on this path is
negative, so the identity run stays clear of the engine's undefined
behaviour. -/
theorem diff_self_eq_nil (S : List Char) : diff S S = .ok [] := by
  rcases Nat.eq_zero_or_pos S.length with h0 | hpos
  · have hS : S = [] := List.length_eq_zero.mp h0
    subst hS
    rfl
  · rw [diff, diffRec]
    simp only [View.size_ofList, min_self, sub_self]
    rw [if_pos ⟨by omega, by omega⟩]
    have hdB : (0:Int) < ((S.length : Int) + (S.length : Int)).tdiv 2 +
        (if ((S.length : Int) + (S.length : Int)).tmod 2 ≠ 0 then 1 else 0) + 1 := by
      have h1 : (0:Int) ≤ ((S.length : Int) + (S.length : Int)).tdiv 2 :=
        Int.tdiv_nonneg (by omega) (by norm_num)
      split <;> omega
    rw [dLoop_refl S hpos _ hdB _]
    simp only []
    rw [if_pos (Or.inr ⟨by omega, by omega⟩)]
    rw [diffRec_empty _ _ _ (by simp [View.sub, View.size, View.ofList])
      (by simp [View.sub, View.size, View.ofList]) [] (by omega)]
    simp only []
    rw [diffRec_empty _ _ _ (by simp [View.sub, View.size, View.ofList])
      (by simp [View.sub, View.size, View.ofList]) [] (by omega)]

/-! ### Patch payloads are never empty (claim C9) -/

/-- A successful payload copy has exactly `size()` characters. -/
theorem extract_length {v : View} {s : List Char} (h : v.extract = .ok s) :
    (s.length : Int) = v.e - v.b := by
  cases hb : v.backing with
  | none =>
    rw [View.extract, hb] at h
    exact Except.noConfusion h
  | some l =>
    rw [View.extract, hb] at h
    simp only [] at h
    by_cases hc : 0 ≤ v.b ∧ v.b ≤ v.e ∧ v.e ≤ (l.length : Int)
    · rw [if_pos hc] at h
      obtain rfl : s = (l.drop v.b.toNat).take (v.e - v.b).toNat := (Except.ok.inj h).symm
      rw [List.length_take, List.length_drop]
      omega
    · rw [if_neg hc] at h
      exact Except.noConfusion h

/-- A deletion patch built from a non-empty view has a non-empty payload. -/
theorem make_deletion_ne_nil {v : View} {p : Patch} (hv : 0 < v.size)
    (h : Patch.make_deletion v = .ok p) : p.seq ≠ [] := by
  rw [Patch.make_deletion] at h
  cases hx : v.extract with
  | error e => rw [hx] at h; exact Except.noConfusion h
  | ok s =>
    rw [hx] at h
    simp only [] at h
    obtain rfl : p = ⟨.Deletion, v.b, s⟩ := (Except.ok.inj h).symm
    show s ≠ []
    have hl := extract_length hx
    have hv2 : 0 < v.e - v.b := hv
    exact List.length_pos.mp (by omega)

/-- An addition patch built from a non-empty view has a non-empty payload. -/
theorem make_addition_ne_nil {v : View} {p : Patch} (hv : 0 < v.size)
    (h : Patch.make_addition v = .ok p) : p.seq ≠ [] := by
  rw [Patch.make_addition] at h
  cases hx : v.extract with
  | error e => rw [hx] at h; exact Except.noConfusion h
  | ok s =>
    rw [hx] at h
    simp only [] at h
    obtain rfl : p = ⟨.Addition, v.b, s⟩ := (Except.ok.inj h).symm
    show s ≠ []
    have hl := extract_length hx
    have hv2 : 0 < v.e - v.b := hv
    exact List.length_pos.mp (by omega)

/-- Every patch `_diff` ever appends comes from one of the two leaf
sites, each guarded by a positive size, so a completed run only ever
adds non-empty payloads to the accumulator. -/
theorem diffRec_seq_ne_nil : ∀ (f : Nat) (lv rv : View) (acc ps : List Patch),
    diffRec f lv rv acc = .ok ps → (∀ p ∈ acc, p.seq ≠ []) → ∀ p ∈ ps, p.seq ≠ [] := by
  intro f
  induction f with
  | zero =>
    intro lv rv acc ps h
    exact absurd h (by rw [diffRec]; exact fun hh => Except.noConfusion hh)
  | succ f ih =>
    intro lv rv acc ps h hacc
    rw [diffRec] at h
    simp only [] at h
    by_cases hLR : 0 < lv.size ∧ 0 < rv.size
    · rw [if_pos hLR] at h
      cases hdl : dLoop lv rv lv.size rv.size (lv.size + rv.size)
          (2 * min lv.size rv.size + 2) (lv.size - rv.size)
          ((lv.size + rv.size).tdiv 2 +
            (if (lv.size + rv.size).tmod 2 ≠ 0 then 1 else 0) + 1)
          (((lv.size + rv.size).tdiv 2 +
            (if (lv.size + rv.size).tmod 2 ≠ 0 then 1 else 0) + 1).toNat + 1)
          0 (List.replicate (2 * min lv.size rv.size + 2).toNat 0)
          (List.replicate (2 * min lv.size rv.size + 2).toNat 0) with
      | error e =>
        rw [hdl] at h
        exact absurd h (fun hh => Except.noConfusion hh)
      | ok os =>
        rw [hdl] at h
        cases os with
        | none =>
          simp only [] at h
          obtain rfl : ps = acc := (Except.ok.inj h).symm
          exact hacc
        | some s =>
          simp only [] at h
          by_cases hsp : 1 < s.D ∨ (s.x ≠ s.u ∧ s.y ≠ s.v)
          · rw [if_pos hsp] at h
            cases hrec1 : diffRec f (lv.sub 0 s.x) (rv.sub 0 s.y) acc with
            | error e =>
              rw [hrec1] at h
              exact absurd h (fun hh => Except.noConfusion hh)
            | ok acc1 =>
              rw [hrec1] at h
              exact ih _ _ acc1 ps h (ih _ _ acc acc1 hrec1 hacc)
          · rw [if_neg hsp] at h
            by_cases hlt : lv.size < rv.size
            · rw [if_pos hlt] at h
              exact ih _ _ acc ps h hacc
            · rw [if_neg hlt] at h
              by_cases hgt : rv.size < lv.size
              · rw [if_pos hgt] at h
                exact ih _ _ acc ps h hacc
              · rw [if_neg hgt] at h
                obtain rfl : ps = acc := (Except.ok.inj h).symm
                exact hacc
    · rw [if_neg hLR] at h
      by_cases hL : 0 < lv.size
      · rw [if_pos hL] at h
        cases hmk : Patch.make_deletion lv with
        | error e =>
          rw [hmk] at h
          exact absurd h (fun hh => Except.noConfusion hh)
        | ok p0 =>
          rw [hmk] at h
          simp only [] at h
          obtain rfl : ps = acc ++ [p0] := (Except.ok.inj h).symm
          intro p hp
          rcases List.mem_append.mp hp with hz | hz
          · exact hacc p hz
          · obtain rfl : p = p0 := List.mem_singleton.mp hz
            exact make_deletion_ne_nil hL hmk
      · rw [if_neg hL] at h
        by_cases hR : 0 < rv.size
        · rw [if_pos hR] at h
          cases hmk : Patch.make_addition rv with
          | error e =>
            rw [hmk] at h
            exact absurd h (fun hh => Except.noConfusion hh)
          | ok p0 =>
            rw [hmk] at h
            simp only [] at h
            obtain rfl : ps = acc ++ [p0] := (Except.ok.inj h).symm
            intro p hp
            rcases List.mem_append.mp hp with hz | hz
            · exact hacc p hz
            · obtain rfl : p = p0 := List.mem_singleton.mp hz
              exact make_addition_ne_nil hR hmk
        · rw [if_neg hR] at h
          obtain rfl : ps = acc := (Except.ok.inj h).symm
          exact hacc

/-- C9: every patch `diff` returns has a non-empty symbol payload.
Patches are constructed only at the two base-case sites of `_diff`,
each of which receives the whole current view under a positive-size
guard, so a zero-length patch is never constructed on any run that
completes. -/
theorem diff_patches_nonempty (l r : List Char) (ps : List Patch)
    (h : diff l r = .ok ps) : ∀ p ∈ ps, p.seq ≠ [] :=
  diffRec_seq_ne_nil _ (View.ofList l) (View.ofList r) [] ps h
    (fun p hp => absurd hp (List.not_mem_nil p))

/-- Witness for C9: the run `diff("a", "")` completes with the single
deletion patch, whose payload is non-empty. -/
theorem diff_patches_nonempty_witness :
    diff ['a'] [] = .ok [⟨.Deletion, 0, ['a']⟩] ∧
      (⟨.Deletion, 0, ['a']⟩ : Patch).seq ≠ [] :=
  ⟨rfl, diff_patches_nonempty ['a'] [] [⟨.Deletion, 0, ['a']⟩] rfl
    ⟨.Deletion, 0, ['a']⟩ (List.mem_singleton.mpr rfl)⟩
